import Mathlib

/-!
Verification of the DiffScribe core pipeline: the unified-diff parser
(`splitByFile` / `parseHunks` / `countChanges`), the full-file line-annotation
reconstructor (`getFullFileContent` / `getFullFileContentForStaged`) and the
markdown mode renderer (`renderMarkdownLines`).  All definitions are shallow
embeddings of the TypeScript source; the external git content fetches are
modelled by passing the fetched text (or, after the source's own catch
handlers, the empty string) as explicit arguments.
-/

namespace DiffScribe

/-- File status as declared by the diff headers
(`DiffFile['status']` in the source). -/
inductive Status where
  | added
  | modified
  | deleted
  | renamed
  | copied
deriving Repr, DecidableEq

/-- The string the renderer interpolates for a status
(template literals print the TS union value verbatim). -/
def statusStr : Status → String
  | .added => "added"
  | .modified => "modified"
  | .deleted => "deleted"
  | .renamed => "renamed"
  | .copied => "copied"

/-- One parsed hunk.  Carries both the canonical count fields and the
legacy-named aliases (`oldLines`/`newLines`) that `DiffParser.parseHunks`
sets for backward compatibility. -/
structure DiffHunk where
  header : String
  lines : List String
  oldStart : Nat
  newStart : Nat
  oldCount : Nat
  newCount : Nat
  oldLines : Nat
  newLines : Nat
deriving Repr, DecidableEq

/-- One parsed per-file diff record, with both path naming conventions
(`pathA`/`pathB` and the `oldPath`/`newPath` aliases). -/
structure DiffFile where
  header : String
  body : String
  status : Status
  pathA : String
  pathB : String
  oldPath : String
  newPath : String
  isBinary : Bool
  hunks : List DiffHunk
  renameFrom : Option String
  renameTo : Option String
deriving Repr, DecidableEq

/-- Commit metadata handed to the renderer.  An empty `hash` models the
falsy (staged-changes) case of the TS code. -/
structure CommitMeta where
  title : String
  author : String
  date : String
  hash : String
  short : String
deriving Repr, DecidableEq

/-- Renderer options (the `cwd` field only feeds the external git calls,
which are modelled by explicit fetch arguments instead). -/
structure RenderOptions where
  maxFileBytes : Nat
  detectBinary : Bool
deriving Repr, DecidableEq

/-- Render mode of `renderMarkdown` (`'full' | 'hunks'`). -/
inductive Mode where
  | full
  | hunks
deriving Repr, DecidableEq

/-! ### Character-level helpers for the regular expressions of the source -/

/-- JS `s.startsWith(pre)` as a character-list prefix test. -/
def strStarts (s pre : String) : Bool :=
  pre.data.isPrefixOf s.data

/-- JS `s.endsWith(suf)` as a character-list suffix test. -/
def strEnds (s suf : String) : Bool :=
  suf.data.isSuffixOf s.data

/-- JS `s.split(c)` for a one-character separator, on character lists.  The
result is never empty (the empty input yields one empty piece, as in JS). -/
def splitCharList (c : Char) : List Char → List (List Char)
  | [] => [[]]
  | a :: rest =>
    let r := splitCharList c rest
    if a == c then [] :: r
    else (a :: r.headD []) :: r.tail

/-- JS `s.split(c)` for a one-character separator (every split in the
source uses `'\n'`, `'.'` or `'/'`). -/
def splitChar (s : String) (c : Char) : List String :=
  (splitCharList c s.data).map (fun cs => (⟨cs⟩ : String))

/-- JS `s.trim()`: strip whitespace from both ends. -/
def strTrim (s : String) : String :=
  ⟨((s.data.dropWhile Char.isWhitespace).reverse.dropWhile Char.isWhitespace).reverse⟩

/-- JS `s.toLowerCase()`. -/
def strLower (s : String) : String :=
  ⟨s.data.map Char.toLower⟩

/-- Maximal run of leading decimal digits, with the rest of the input. -/
def takeDigits : List Char → List Char × List Char
  | [] => ([], [])
  | c :: cs =>
    if c.isDigit then
      let p := takeDigits cs
      (c :: p.1, p.2)
    else ([], c :: cs)

/-- Numeric value of a digit run (the `parseInt` of the matched group). -/
def digitsToNat (ds : List Char) : Nat :=
  ds.foldl (fun n c => n * 10 + (c.toNat - 48)) 0

/-- Parses `<start>[,<count>]` of a hunk header; an omitted count defaults
to 1, mirroring the optional group `(?:,(\d+))?`. -/
def parseStartCount (cs : List Char) : Option (Nat × Nat × List Char) :=
  match takeDigits cs with
  | ([], _) => none
  | (ds, rest) =>
    match rest with
    | ',' :: rest2 =>
      match takeDigits rest2 with
      | ([], _) => none
      | (ds2, rest3) => some (digitsToNat ds, digitsToNat ds2, rest3)
    | _ => some (digitsToNat ds, 1, rest)

/-- The hunk-header pattern `@@ -<oldStart>[,<oldCount>] +<newStart>[,<newCount>] @@`
(unanchored at the right, so trailing section text is accepted). -/
def parseHunkHeader (line : String) : Option (Nat × Nat × Nat × Nat) :=
  let cs := line.data
  if cs.take 4 = ['@', '@', ' ', '-'] then
    match parseStartCount (cs.drop 4) with
    | none => none
    | some (os, oc, rest) =>
      if rest.take 2 = [' ', '+'] then
        match parseStartCount (rest.drop 2) with
        | none => none
        | some (ns, nc, rest2) =>
          if rest2.take 3 = [' ', '@', '@'] then some (os, oc, ns, nc) else none
      else none
  else none

/-- Substring containment on character lists (the `String.includes` of JS). -/
def containsSubList (needle : List Char) : List Char → Bool
  | [] => needle.isEmpty
  | c :: cs => needle.isPrefixOf (c :: cs) || containsSubList needle cs

/-- `s.includes(sub)` of JS. -/
def containsSub (s sub : String) : Bool :=
  containsSubList sub.data s.data

/-- The two captured groups of `^diff --git a\/(.+) b\/(.+)$` on the text
after the `diff --git a/` marker: both groups are greedy, so the separator
`" b/"` chosen is the last occurrence that leaves both paths non-empty. -/
def gitDiffPaths (rest : List Char) : Option (String × String) :=
  let n := rest.length
  let idxs := (List.range n).filter
    (fun i => (i != 0) && ((rest.drop i).take 3 == [' ', 'b', '/']) && decide (i + 3 < n))
  match idxs.getLast? with
  | none => none
  | some i => some (⟨rest.take i⟩, ⟨rest.drop (i + 3)⟩)

/-- Match of a block's `diff --git ` line against `^diff --git a\/(.+) b\/(.+)$`. -/
def parseGitDiffLine (line : String) : Option (String × String) :=
  if strStarts line "diff --git a/" then gitDiffPaths (line.data.drop 13) else none

/-! ### Hunk extraction (`DiffParser.parseHunks`)

The TS loop keeps `currentHunk` as a mutable reference that is pushed into
the result array.  A line starting with `@@` that fails the header pattern
pushes the current hunk but leaves it current, so the same object can be
pushed again and keeps accumulating lines (visible in every pushed copy).
The embedding tracks, next to the current hunk value, how many copies of it
have already been pushed; the copies are materialised with the hunk's final
value, which is exactly what the shared mutable reference produces. -/

/-- A fresh hunk as constructed at a matching header line (the
`oldLines`/`newLines` aliases are set from the parsed counts). -/
def mkHunk (line : String) (os oc ns nc : Nat) : DiffHunk :=
  { header := line, lines := [], oldStart := os, newStart := ns,
    oldCount := oc, newCount := nc, oldLines := oc, newLines := nc }

/-- Materialises the pending pushes of the current hunk: `k` earlier pushes
of the shared reference plus the push happening now. -/
def flushCur : Option (DiffHunk × Nat) → List DiffHunk
  | none => []
  | some (h, k) => List.replicate (k + 1) h

/-- One line of the `parseHunks` scan, transforming the (result array,
current hunk) state: a line starting `@@` pushes the current hunk and, when
the header pattern matches, starts a fresh one (otherwise the already
pushed hunk stays current with one more pending copy); a ` `/`+`/`-` line
is appended to the current hunk; everything else is ignored. -/
def parseHunksStep (st : List DiffHunk × Option (DiffHunk × Nat)) (line : String) :
    List DiffHunk × Option (DiffHunk × Nat) :=
  if strStarts line "@@" then
    match parseHunkHeader line with
    | some (os, oc, ns, nc) => (st.1 ++ flushCur st.2, some (mkHunk line os oc ns nc, 0))
    | none =>
      match st.2 with
      | some (h, k) => (st.1, some (h, k + 1))
      | none => st
  else if strStarts line " " || strStarts line "+" || strStarts line "-" then
    match st.2 with
    | some (h, k) => (st.1, some ({ h with lines := h.lines ++ [line] }, k))
    | none => st
  else st

/-- The scanning loop of `parseHunks`: `done` is the result array up to the
copies of the current hunk, `cur` the current hunk with its pending push
count; the trailing hunk is pushed after the scan. -/
def parseHunksGo (done : List DiffHunk) (cur : Option (DiffHunk × Nat)) :
    List String → List DiffHunk
  | [] => done ++ flushCur cur
  | line :: rest =>
    let st := parseHunksStep (done, cur) line
    parseHunksGo st.1 st.2 rest

/-- `DiffParser.parseHunks`: extract the hunks of one file block. -/
def parseHunks (lines : List String) : List DiffHunk :=
  parseHunksGo [] none lines

/-! ### Per-file splitting (`DiffParser.splitByFile`) -/

/-- Mutable per-block metadata of the header scan in `splitByFile`. -/
structure BlockMeta where
  status : Status
  renameFrom : Option String
  renameTo : Option String
  isBinary : Bool
deriving Repr, DecidableEq

/-- Initial metadata: default status is `modified`. -/
def initBlockMeta : BlockMeta :=
  { status := .modified, renameFrom := none, renameTo := none, isBinary := false }

/-- One step of the metadata scan over a block's lines. -/
def metaStep (m : BlockMeta) (line : String) : BlockMeta :=
  if strStarts line "new file mode" then { m with status := .added }
  else if strStarts line "deleted file mode" then { m with status := .deleted }
  else if strStarts line "rename from " then
    { m with status := .renamed, renameFrom := some (line.drop 12) }
  else if strStarts line "rename to " then { m with renameTo := some (line.drop 10) }
  else if strStarts line "copy from " then { m with status := .copied }
  else if (containsSub line "Binary files " && containsSub line " differ")
      || containsSub line "GIT binary patch" then { m with isBinary := true }
  else m

/-- Grouping of the input's lines into blocks: the split
`/\n(?=diff --git )/g` cuts exactly before every line after the first that
starts with `diff --git `. -/
def groupLinesGo (acc : List String) : List String → List (List String)
  | [] => [acc]
  | l :: rest =>
    if strStarts l "diff --git " then acc :: groupLinesGo [l] rest
    else groupLinesGo (acc ++ [l]) rest

/-- The block strings produced by `diffAll.split(/\n(?=diff --git )/g)`. -/
def splitBlocks (text : String) : List String :=
  match splitChar text '\n' with
  | [] => []
  | l :: rest => (groupLinesGo [l] rest).map (String.intercalate "\n")

/-- Parsing of one block body of the `splitByFile` loop; `none` models the
two `continue` statements (no `diff --git ` line, or a path match failure). -/
def parseBlock (block : String) : Option DiffFile :=
  let lines := splitChar block '\n'
  match lines.find? (fun l => strStarts l "diff --git ") with
  | none => none
  | some diffLine =>
    match parseGitDiffLine diffLine with
    | none => none
    | some pp =>
      let md := lines.foldl metaStep initBlockMeta
      let hunks := parseHunks lines
      let hb := match lines.findIdx? (fun l => strStarts l "@@") with
        | none => (block, "")
        | some i => (String.intercalate "\n" (lines.take i), String.intercalate "\n" (lines.drop i))
      some { header := hb.1, body := hb.2, status := md.status, pathA := pp.1, pathB := pp.2,
             oldPath := pp.1, newPath := pp.2, isBinary := md.isBinary, hunks := hunks,
             renameFrom := md.renameFrom, renameTo := md.renameTo }

/-- `DiffParser.splitByFile`: split the whole diff text into per-file
records, silently skipping blocks without a valid `diff --git ` marker. -/
def splitByFile (text : String) : List DiffFile :=
  ((splitBlocks text).filter (fun b => strTrim b != "")).foldl
    (fun acc b =>
      match parseBlock b with
      | some f => acc ++ [f]
      | none => acc) []

/-! ### Change counting (`DiffParser.countChanges`) -/

/-- The `{ additions, deletions }` result record of `countChanges`. -/
structure ChangeCounts where
  additions : Nat
  deletions : Nat
deriving Repr, DecidableEq

/-- The innermost step of the `countChanges` loop nest: classify one hunk
line (the `-` test only runs when the `+` test failed, as in the
`else if`). -/
def countLineStep (acc : ChangeCounts) (line : String) : ChangeCounts :=
  if strStarts line "+" then { acc with additions := acc.additions + 1 }
  else if strStarts line "-" then { acc with deletions := acc.deletions + 1 }
  else acc

/-- The middle loop of `countChanges`: all lines of one hunk. -/
def countHunkStep (acc : ChangeCounts) (hunk : DiffHunk) : ChangeCounts :=
  hunk.lines.foldl countLineStep acc

/-- The outer loop of `countChanges`: all hunks of one file. -/
def countFileStep (acc : ChangeCounts) (file : DiffFile) : ChangeCounts :=
  file.hunks.foldl countHunkStep acc

/-- `DiffParser.countChanges`: count `+`/`-` hunk lines over a file set. -/
def countChanges (files : List DiffFile) : ChangeCounts :=
  files.foldl countFileStep { additions := 0, deletions := 0 }

/-! ### Full-file reconstruction (`getFullFileContent`, `getFullFileContentForStaged`)

The git fetches (`git show <rev>:<path>`) are modelled by the fetched text
passed as an argument; every fetch failure is caught in the source and turns
into the empty string, so the embedded functions are total and the renderer's
catch-fallback branch is unreachable. -/

/-- `Buffer.byteLength(line + '\n', 'utf8')`: UTF-8 size of an emitted line
plus its terminator byte. -/
def byteLen (s : String) : Nat :=
  s.utf8ByteSize + 1

/-- The synthetic truncation marker line. -/
def truncMarker (n k : Nat) : String :=
  "... (truncated at line " ++ toString n ++ ", " ++ toString k ++ " lines omitted)"

/-- `Map.set` of the JS `removedLines` map: a later set of the same key
shadows the earlier one. -/
def mset (m : List (Nat × List String)) (k : Nat) (v : List String) :
    List (Nat × List String) :=
  (k, v) :: m

/-- `removedLines.has(k) ? removedLines.get(k)! : []`; the source only ever
stores non-empty lists, so mapping a missing key to `[]` emits nothing,
exactly like the guarded `has` check. -/
def mgetD (m : List (Nat × List String)) (k : Nat) : List String :=
  match m.find? (fun p => p.1 == k) with
  | some p => p.2
  | none => []

/-- Cursor state of the hunk walk that builds the addition set and the
removed-lines map: after-line cursor, old-line cursor and the pending
removed lines of the current run. -/
structure WalkState where
  added : List Nat
  rmap : List (Nat × List String)
  newLn : Nat
  oldLn : Nat
  removed : List String
deriving Repr, DecidableEq

/-- One hunk line of the map-building walk: `+` records the after-line
number and advances the new cursor, `-` collects the removed text and
advances the old cursor, anything else (a context line) flushes the pending
removed lines at the current after-line number and advances both cursors. -/
def walkLine (st : WalkState) (line : String) : WalkState :=
  if strStarts line "+" then
    { st with added := st.newLn :: st.added, newLn := st.newLn + 1 }
  else if strStarts line "-" then
    { st with removed := st.removed ++ [line], oldLn := st.oldLn + 1 }
  else
    { st with
      rmap := if st.removed.isEmpty then st.rmap else mset st.rmap st.newLn st.removed,
      removed := [],
      newLn := st.newLn + 1,
      oldLn := st.oldLn + 1 }

/-- The walk over one hunk, including the end-of-hunk flush of remaining
removed lines. -/
def walkHunk (acc : List Nat × List (Nat × List String)) (h : DiffHunk) :
    List Nat × List (Nat × List String) :=
  let st := h.lines.foldl walkLine
    { added := acc.1, rmap := acc.2, newLn := h.newStart, oldLn := h.oldStart, removed := [] }
  (st.added, if st.removed.isEmpty then st.rmap else mset st.rmap st.newLn st.removed)

/-- The addition set and removed-lines map built from the hunk sequence. -/
def buildHunkMaps (hunks : List DiffHunk) : List Nat × List (Nat × List String) :=
  hunks.foldl walkHunk ([], [])

/-- The added/deleted emission loop: every line is prefixed with `tag`; the
running byte total is checked against the budget and on overflow a single
marker line replaces the rest.  `lineNum` is 1-based. -/
def emitTagged (tag : String) (maxBytes : Nat) : List String → Nat → Nat → List String
  | [], _, _ => []
  | line :: rest, lineNum, total =>
    let out := tag ++ line
    let total1 := total + byteLen out
    if total1 > maxBytes then [truncMarker lineNum (rest.length + 1)]
    else out :: emitTagged tag maxBytes rest (lineNum + 1) total1

/-- The modified/renamed/copied emission loop: before after-line `lineNum`
the removed lines mapped to it are emitted (accumulated into the byte total
but never budget-checked themselves); the after line is prefixed `+` when
its number is in the addition set, otherwise a space; when the total
including the current after line exceeds the budget the line is dropped, a
single marker is emitted and the walk of the after content stops. -/
def emitFrom (added : List Nat) (rmap : List (Nat × List String)) (maxBytes : Nat) :
    List String → Nat → Nat → List String
  | [], _, _ => []
  | line :: rest, lineNum, total =>
    let rem := mgetD rmap lineNum
    let total1 := total + (rem.map byteLen).sum
    let out := (if added.contains lineNum then "+" else " ") ++ line
    let total2 := total1 + byteLen out
    if total2 > maxBytes then rem ++ [truncMarker lineNum (rest.length + 1)]
    else rem ++ out :: emitFrom added rmap maxBytes rest (lineNum + 1) total2

/-- The hunk-header preamble pushed before any reconstruction output. -/
def hunkHeaderLines (hunks : List DiffHunk) : List String :=
  hunks.map (fun h => h.header) ++ (if hunks.isEmpty then [] else [""])

/-- `getFullFileContent` (commit variant), as the list of emitted lines.
`beforeFetched`/`afterFetched` are the results of the `git show` calls with
their catch handlers applied; for a deleted file the after content is the
empty string and for an added file the before content is, exactly as the
source assigns.  The joined string of this list is what the source returns. -/
def getFullFileContent (hunks : List DiffHunk) (beforeFetched afterFetched : String)
    (maxBytes : Nat) (status : Status) : List String :=
  let afterContent := if status = .deleted then "" else afterFetched
  let beforeContent := if status = .added then "" else beforeFetched
  match status with
  | .deleted => hunkHeaderLines hunks
      ++ emitTagged "-" maxBytes (splitChar beforeContent '\n') 1 0
  | .added => hunkHeaderLines hunks
      ++ emitTagged "+" maxBytes (splitChar afterContent '\n') 1 0
  | _ =>
    let maps := buildHunkMaps hunks
    let afterLines := splitChar afterContent '\n'
    hunkHeaderLines hunks
      ++ emitFrom maps.1 maps.2 maxBytes afterLines 1 0
      ++ mgetD maps.2 (afterLines.length + 1)

/-- `getFullFileContentForStaged`, as the list of emitted lines.  The staged
variant applies the modified-file walk to every status: only the after
content is blanked for a deleted file (the fetched HEAD content is never
read afterwards, faithful to the source where `beforeContent` is unused). -/
def getFullFileContentForStaged (hunks : List DiffHunk) (status : Status)
    (afterFetched : String) (maxBytes : Nat) : List String :=
  let afterContent := if status = .deleted then "" else afterFetched
  let maps := buildHunkMaps hunks
  let afterLines := splitChar afterContent '\n'
  hunkHeaderLines hunks
    ++ emitFrom maps.1 maps.2 maxBytes afterLines 1 0
    ++ mgetD maps.2 (afterLines.length + 1)

/-! ### Claim-level reconstruction (the wording of the specification) -/

/-- Modelled from the spec: the emission order the specification describes
for a modified/renamed file — for each after line `n` in order, first the
removed lines mapped to `n`, then line `n` tagged added exactly when `n` is
in the addition set. -/
def specBody (added : List Nat) (rmap : List (Nat × List String)) :
    List String → Nat → List String
  | [], _ => []
  | line :: rest, n =>
    mgetD rmap n
      ++ ((if added.contains n then "+" else " ") ++ line) :: specBody added rmap rest (n + 1)

/-- Modelled from the spec: the complete reconstruction body for a
modified/renamed file, with the end-of-file removed lines mapped to
`length(afterContent) + 1` emitted after the final line. -/
def specReconstruct (hunks : List DiffHunk) (afterContent : String) : List String :=
  let maps := buildHunkMaps hunks
  let afterLines := splitChar afterContent '\n'
  specBody maps.1 maps.2 afterLines 1 ++ mgetD maps.2 (afterLines.length + 1)

/-! ### Mode renderer (`renderMarkdown` of the source) -/

/-- The extension-to-language table of `getLanguageFromExtension`. -/
def langMap : List (String × String) :=
  [("ts", "typescript"), ("js", "javascript"), ("tsx", "typescript"), ("jsx", "javascript"),
   ("py", "python"), ("rb", "ruby"), ("php", "php"), ("java", "java"), ("cpp", "cpp"),
   ("c", "c"), ("cs", "csharp"), ("go", "go"), ("rs", "rust"), ("kt", "kotlin"),
   ("swift", "swift"), ("md", "markdown"), ("html", "html"), ("css", "css"),
   ("scss", "scss"), ("json", "json"), ("xml", "xml"), ("yml", "yaml"),
   ("yaml", "yaml"), ("sh", "bash"), ("bash", "bash"), ("sql", "sql")]

/-- `getLanguageFromExtension`: table lookup falling back to the extension
itself (`langMap[ext] || ext`), empty for a falsy extension. -/
def getLanguageFromExtension (ext : String) : String :=
  if ext == "" then ""
  else
    match langMap.find? (fun p => p.1 == ext) with
    | some p => p.2
    | none => ext

/-- The known-text extension allow-list of `isLikelyTextFile`. -/
def textExtensions : List String :=
  ["js", "ts", "jsx", "tsx", "json", "md", "txt", "html", "css", "scss", "sass",
   "py", "rb", "php", "java", "c", "cpp", "h", "hpp", "cs", "go", "rs", "kt",
   "swift", "sh", "bash", "zsh", "fish", "ps1", "xml", "yml", "yaml", "toml",
   "ini", "conf", "config", "env", "gitignore", "dockerignore", "editorconfig",
   "vue", "svelte", "astro", "sql", "graphql", "gql", "prisma", "proto",
   "dockerfile", "makefile", "rakefile", "gemfile", "podfile", "gradle"]

/-- The case-insensitive filename patterns of `isLikelyTextFile`, applied to
the lowercased final path component: the leading-anchor patterns are
`startsWith` tests, and `/^\..*rc$/` and `/^\..*config$/` are a leading-dot
test combined with the suffix test. -/
def textFileNameMatch (fileName : String) : Bool :=
  strStarts fileName "dockerfile" || strStarts fileName "makefile"
    || strStarts fileName "rakefile" || strStarts fileName "gemfile"
    || strStarts fileName "podfile" || strStarts fileName "readme"
    || strStarts fileName "license" || strStarts fileName "changelog"
    || strStarts fileName "contributing" || strStarts fileName "authors"
    || strStarts fileName "todo"
    || (strStarts fileName "." && strEnds fileName "rc")
    || (strStarts fileName "." && strEnds fileName "config")

/-- `isLikelyTextFile`: the binary-flag override allow-list, by extension or
by filename pattern. -/
def isLikelyTextFile (path : String) : Bool :=
  let ext := strLower ((splitChar path '.').getLast?.getD "")
  let fileName := strLower ((splitChar path '/').getLast?.getD "")
  (ext != "" && textExtensions.contains ext)
    || (fileName != "" && textFileNameMatch fileName)

/-- JS truthiness of an optional string field (`undefined` and `""` falsy). -/
def optStr : Option String → String
  | some s => s
  | none => ""

/-- `file.pathB || file.pathA`: the displayed path of a file. -/
def fileDisplayPath (file : DiffFile) : String :=
  if file.pathB != "" then file.pathB else file.pathA

/-- Accumulator of the hunks-only rendering loop for modified/renamed
files: emitted lines plus the added/removed counters. -/
structure HunksModeState where
  out : List String
  addedCount : Nat
  removedCount : Nat
deriving Repr, DecidableEq

/-- The inner hunks-only loop step: pass `+`/`-` lines through while
counting them, suppress everything else. -/
def hunksModeLineStep (st : HunksModeState) (l : String) : HunksModeState :=
  if strStarts l "+" then
    { st with out := st.out ++ [l], addedCount := st.addedCount + 1 }
  else if strStarts l "-" then
    { st with out := st.out ++ [l], removedCount := st.removedCount + 1 }
  else st

/-- The outer hunks-only loop step: a hunk header followed by its filtered
lines. -/
def hunksModeHunkStep (st : HunksModeState) (h : DiffHunk) : HunksModeState :=
  h.lines.foldl hunksModeLineStep { st with out := st.out ++ [h.header] }

/-- The hunks-only mode body for one file: synthetic header plus a summary
for added/deleted files; hunk headers with only the changed lines, then a
totals line when any change was counted, for everything else. -/
def renderHunksLines (file : DiffFile) : List String :=
  match file.status with
  | .added =>
    let totalLines := (splitChar file.body '\n').countP (fun l => strStarts l "+")
    ["```diff", "@@ -0,0 +1," ++ toString totalLines ++ " @@",
     "... (new file with " ++ toString totalLines ++ " lines)", "```",
     "*Changes: +" ++ toString totalLines ++ " lines, -0 lines*"]
  | .deleted =>
    let totalLines := (splitChar file.body '\n').countP (fun l => strStarts l "-")
    ["```diff", "@@ -1," ++ toString totalLines ++ " +0,0 @@",
     "... (file deleted with " ++ toString totalLines ++ " lines)", "```",
     "*Changes: +0 lines, -" ++ toString totalLines ++ " lines*"]
  | _ =>
    let st := file.hunks.foldl hunksModeHunkStep { out := [], addedCount := 0, removedCount := 0 }
    ["```diff"] ++ st.out ++ ["```"]
      ++ (if st.addedCount > 0 || st.removedCount > 0 then
            ["*Changes: +" ++ toString st.addedCount ++ " lines, -"
              ++ toString st.removedCount ++ " lines*"]
          else [])

/-- The per-file header block pushed before any content: blank separator,
path heading, status, optional rename line and optional detected language. -/
def fileHeadLines (file : DiffFile) : List String :=
  let p := fileDisplayPath file
  let base := ["", "### " ++ p, "- **Status**: " ++ statusStr file.status]
  let base := base ++
    (if optStr file.renameFrom != "" && optStr file.renameTo != "" then
      ["- **Rename**: " ++ optStr file.renameFrom ++ " → " ++ optStr file.renameTo]
    else [])
  let ext := strLower ((splitChar p '.').getLast?.getD "")
  let language := getLanguageFromExtension ext
  base ++ (if language != "" then ["- **Language**: " ++ language] else [])

/-- The per-file body of the `renderMarkdown` loop.  `showBefore`/`showAfter`
model the git content gateway by path (already including the source's
catch-to-empty handling); the source's fallback catch around the full-mode
call is unreachable because every fetch failure is handled inside the
reconstruction functions. -/
def renderFileLines (meta : CommitMeta) (opts : RenderOptions)
    (showBefore showAfter : String → String) (mode : Mode) (file : DiffFile) : List String :=
  let p := fileDisplayPath file
  let base := fileHeadLines file
  if file.isBinary && opts.detectBinary && !isLikelyTextFile p then
    base ++ ["", "**Binary file - content omitted**"]
  else if file.hunks.isEmpty && file.status != Status.deleted && file.status != Status.added then
    base ++ ["", "No changes in hunks."]
  else
    base ++ [""] ++
      (match mode with
       | .full =>
         let content :=
           if meta.hash != "" then
             getFullFileContent file.hunks (showBefore p) (showAfter p) opts.maxFileBytes file.status
           else
             getFullFileContentForStaged file.hunks file.status (showAfter p) opts.maxFileBytes
         ["```diff", String.intercalate "\n" content, "```"]
       | .hunks => renderHunksLines file)

/-- The commit-metadata header lines pushed before any file section. -/
def metaHeaderLines (meta : CommitMeta) : List String :=
  [(if meta.hash != "" then "# Commit " ++ meta.short ++ " - " else "# ") ++ meta.title]
    ++ (if meta.author != "" || meta.date != "" then
          [""] ++ (if meta.author != "" then ["- **Author**: " ++ meta.author] else [])
            ++ (if meta.date != "" then ["- **Date**: " ++ meta.date] else [])
            ++ (if meta.hash != "" then ["- **Hash**: " ++ meta.hash] else [])
        else [])

/-- `renderMarkdown`, as the pushed line array before the final join. -/
def renderMarkdownLines (meta : CommitMeta) (files : List DiffFile) (mode : Mode)
    (opts : RenderOptions) (showBefore showAfter : String → String) : List String :=
  let base := metaHeaderLines meta
  if files.isEmpty then base ++ ["", "No files changed."]
  else
    files.foldl (fun acc f => acc ++ renderFileLines meta opts showBefore showAfter mode f)
      (base ++ ["", "## Files Changed"])

/-- `renderMarkdown`: the joined output text. -/
def renderMarkdown (meta : CommitMeta) (files : List DiffFile) (mode : Mode)
    (opts : RenderOptions) (showBefore showAfter : String → String) : String :=
  String.intercalate "\n" (renderMarkdownLines meta files mode opts showBefore showAfter)

/-! ## Specification-level counting (wording of the spec for C5) -/

/-- Modelled from the spec: the number of hunk lines beginning with `+`,
summed across all hunks of all files. -/
def specAdditions (files : List DiffFile) : Nat :=
  (files.map (fun f => (f.hunks.map (fun h => h.lines.countP (fun l => strStarts l "+"))).sum)).sum

/-- Modelled from the spec: the number of hunk lines beginning with `-`,
summed across all hunks of all files. -/
def specDeletions (files : List DiffFile) : Nat :=
  (files.map (fun f => (f.hunks.map (fun h => h.lines.countP (fun l => strStarts l "-"))).sum)).sum

/-! ## Specification-level hunk extraction (wording of the spec for C7) -/

/-- Modelled from the spec: the lines a hunk accumulates — the run of
lines up to the next `@@` line, keeping only those beginning with a
context space, `+` or `-`. -/
def hunkBody (ls : List String) : List String :=
  (ls.takeWhile (fun l => !strStarts l "@@")).filter
    (fun l => strStarts l " " || strStarts l "+" || strStarts l "-")

/-- Modelled from the spec: clean hunk extraction where every hunk header
starts a new hunk, the previous hunk is flushed exactly once, the trailing
hunk is flushed exactly once after the scan, and only context/`+`/`-`
lines are accumulated. -/
def specParseHunks : List String → List DiffHunk
  | [] => []
  | l :: rest =>
    match parseHunkHeader l with
    | some (os, oc, ns, nc) =>
      { mkHunk l os oc ns nc with lines := hunkBody rest }
        :: specParseHunks (rest.dropWhile (fun x => !strStarts x "@@"))
    | none => specParseHunks rest
termination_by ls => ls.length
decreasing_by
  · have := (List.dropWhile_sublist (l := rest) (p := fun x => !strStarts x "@@")).length_le
    simp
    omega
  · simp

/-! ## Invariants -/

/-- The `hunkAliasOk` invariant of C10: a hunk's legacy count fields agree
with the canonical ones. -/
def hunkAliasOk (h : DiffHunk) : Prop :=
  h.oldLines = h.oldCount ∧ h.newLines = h.newCount

/-- The invariant lifted to the scanning state of `parseHunksGo`. -/
def stateAliasOk (st : List DiffHunk × Option (DiffHunk × Nat)) : Prop :=
  (∀ h ∈ st.1, hunkAliasOk h) ∧ (∀ h k, st.2 = some (h, k) → hunkAliasOk h)

/-! ## Concrete inputs used by witnesses and counterexamples -/

/-- The concrete hunk of the C1 witness: `@@ -1,2 +1,3 @@` inserting one
line between two context lines. -/
def wHunk : DiffHunk :=
  { header := "@@ -1,2 +1,3 @@", lines := [" line1", "+new line", " line2"],
    oldStart := 1, newStart := 1, oldCount := 2, newCount := 3, oldLines := 2, newLines := 3 }

/-- The concrete hunk of the C3 counterexample: a removal at end of file
(`-c` after the final context line). -/
def truncHunk : DiffHunk :=
  { header := "@@ -1,3 +1,2 @@", lines := [" a", " b", "-c"],
    oldStart := 1, newStart := 1, oldCount := 3, newCount := 2, oldLines := 3, newLines := 2 }

/-- A hunk whose body is a single context line (no `+`/`-` lines). -/
def ctxHunk : DiffHunk :=
  { header := "@@ -1,1 +1,1 @@", lines := [" x"],
    oldStart := 1, newStart := 1, oldCount := 1, newCount := 1, oldLines := 1, newLines := 1 }

/-- A modified file whose only hunk contains no changed line. -/
def ctxOnlyFile : DiffFile :=
  { header := "", body := "", status := .modified,
    pathA := "a.txt", pathB := "a.txt", oldPath := "a.txt", newPath := "a.txt",
    isBinary := false, hunks := [ctxHunk], renameFrom := none, renameTo := none }

/-- A one-line-replacement hunk for the binary `.png` file. -/
def pngHunk : DiffHunk :=
  { header := "@@ -1,1 +1,1 @@", lines := ["-a", "+b"],
    oldStart := 1, newStart := 1, oldCount := 1, newCount := 1, oldLines := 1, newLines := 1 }

/-- A binary-flagged `.png` file (not on the text-file allow-list). -/
def pngFile : DiffFile :=
  { header := "", body := "", status := .modified,
    pathA := "img.png", pathB := "img.png", oldPath := "img.png", newPath := "img.png",
    isBinary := true, hunks := [pngHunk], renameFrom := none, renameTo := none }

/-- Concrete commit metadata for the render examples. -/
def metaC : CommitMeta :=
  { title := "msg", author := "au", date := "2025-01-01", hash := "0123456789abcdef",
    short := "0123456" }

/-- Concrete options for the render examples. -/
def optsC : RenderOptions := { maxFileBytes := 1000000, detectBinary := true }

/-- The concrete diff text of the spec scenario. -/
def scenarioText : String :=
  "diff --git a/x.txt b/x.txt\n@@ -1,2 +1,3 @@\n line1\n+new line\n line2"

/-- The parse of `scenarioText`: one modified file with the single hunk
`wHunk` (`oldCount = 2`, `newCount = 3`). -/
def scenarioFile : DiffFile :=
  { header := "diff --git a/x.txt b/x.txt",
    body := "@@ -1,2 +1,3 @@\n line1\n+new line\n line2",
    status := .modified, pathA := "x.txt", pathB := "x.txt",
    oldPath := "x.txt", newPath := "x.txt", isBinary := false,
    hunks := [wHunk], renameFrom := none, renameTo := none }

/-! ## Helper lemmas -/

theorem strStarts_one_char (s : String) (c : Char) :
    strStarts s ⟨[c]⟩ = (s.data.head? == some c) := by
  unfold strStarts
  cases hd : s.data with
  | nil => simp [List.isPrefixOf]
  | cons a l =>
    simp [List.isPrefixOf, List.isPrefixOf_nil_left]
    exact eq_comm

theorem strStarts_plus_minus (s : String) (h : strStarts s "+" = true) :
    strStarts s "-" = false := by
  have hp : ("+" : String) = ⟨['+']⟩ := rfl
  have hm : ("-" : String) = ⟨['-']⟩ := rfl
  rw [hp, strStarts_one_char] at h
  rw [hm, strStarts_one_char]
  cases hd : s.data.head? with
  | none => simp
  | some a =>
    rw [hd] at h
    simp at h
    simp [h]

theorem countLine_fold (lines : List String) :
    ∀ acc : ChangeCounts, lines.foldl countLineStep acc
      = { additions := acc.additions + lines.countP (fun l => strStarts l "+"),
          deletions := acc.deletions + lines.countP (fun l => strStarts l "-") } := by
  induction lines with
  | nil => intro acc; simp
  | cons l ls ih =>
    intro acc
    by_cases hp : strStarts l "+" = true
    · have hm := strStarts_plus_minus l hp
      simp [countLineStep, hp, hm, ih, List.countP_cons]
      omega
    · by_cases hm : strStarts l "-" = true
      · simp [countLineStep, hp, hm, ih, List.countP_cons]
        omega
      · simp [countLineStep, hp, hm, ih, List.countP_cons]

theorem countHunk_fold (hunks : List DiffHunk) :
    ∀ acc : ChangeCounts, hunks.foldl countHunkStep acc
      = { additions := acc.additions
            + (hunks.map (fun h => h.lines.countP (fun l => strStarts l "+"))).sum,
          deletions := acc.deletions
            + (hunks.map (fun h => h.lines.countP (fun l => strStarts l "-"))).sum } := by
  induction hunks with
  | nil => intro acc; simp
  | cons h hs ih =>
    intro acc
    simp [countHunkStep, countLine_fold, ih]
    omega

theorem countFile_fold (files : List DiffFile) :
    ∀ acc : ChangeCounts, files.foldl countFileStep acc
      = { additions := acc.additions + specAdditions files,
          deletions := acc.deletions + specDeletions files } := by
  induction files with
  | nil => intro acc; simp [specAdditions, specDeletions]
  | cons f fs ih =>
    intro acc
    simp [specAdditions, specDeletions, countFileStep, countHunk_fold, ih]
    omega

theorem foldl_pushOpt (bs : List String) :
    ∀ acc : List DiffFile,
      bs.foldl (fun acc b => match parseBlock b with | some f => acc ++ [f] | none => acc) acc
        = acc ++ bs.filterMap parseBlock := by
  induction bs with
  | nil => intro acc; simp
  | cons b bs ih =>
    intro acc
    cases hfb : parseBlock b <;> simp [List.filterMap_cons, hfb, ih]

theorem splitByFile_eq_filterMap (text : String) :
    splitByFile text
      = ((splitBlocks text).filter (fun b => strTrim b != "")).filterMap parseBlock := by
  unfold splitByFile
  rw [foldl_pushOpt]
  simp

theorem flushCur_alias (cur : Option (DiffHunk × Nat))
    (hcur : ∀ h k, cur = some (h, k) → hunkAliasOk h) :
    ∀ h ∈ flushCur cur, hunkAliasOk h := by
  cases cur with
  | none => simp [flushCur]
  | some p =>
    intro h hmem
    simp [flushCur] at hmem
    rw [hmem]
    exact hcur p.1 p.2 rfl

theorem parseHunksStep_alias (st : List DiffHunk × Option (DiffHunk × Nat)) (line : String)
    (hst : stateAliasOk st) : stateAliasOk (parseHunksStep st line) := by
  obtain ⟨hdone, hcur⟩ := hst
  unfold parseHunksStep
  split
  · split
    · rename_i os oc ns nc heq
      constructor
      · intro h hmem
        rcases List.mem_append.mp hmem with hm | hm
        · exact hdone h hm
        · exact flushCur_alias st.2 hcur h hm
      · intro h k hx
        injection hx with hx
        injection hx with hx1 hx2
        rw [← hx1]
        exact ⟨rfl, rfl⟩
    · split
      · rename_i h0 k0 heq2
        refine ⟨hdone, ?_⟩
        intro h k hx
        injection hx with hx
        injection hx with hx1 hx2
        rw [← hx1]
        exact hcur h0 k0 heq2
      · exact ⟨hdone, hcur⟩
  · split
    · split
      · rename_i h0 k0 heq2
        refine ⟨hdone, ?_⟩
        intro h k hx
        injection hx with hx
        injection hx with hx1 hx2
        rw [← hx1]
        exact hcur h0 k0 heq2
      · exact ⟨hdone, hcur⟩
    · exact ⟨hdone, hcur⟩

theorem parseHunksGo_alias (lines : List String) :
    ∀ (done : List DiffHunk) (cur : Option (DiffHunk × Nat)),
      stateAliasOk (done, cur) →
      ∀ h ∈ parseHunksGo done cur lines, hunkAliasOk h := by
  induction lines with
  | nil =>
    intro done cur hst h hmem
    simp [parseHunksGo] at hmem
    rcases hmem with hm | hm
    · exact hst.1 h hm
    · exact flushCur_alias cur hst.2 h hm
  | cons l rest ih =>
    intro done cur hst h hmem
    rw [parseHunksGo] at hmem
    exact ih _ _ (parseHunksStep_alias (done, cur) l hst) h hmem

theorem parseHunks_alias (lines : List String) :
    ∀ h ∈ parseHunks lines, hunkAliasOk h := by
  unfold parseHunks
  exact parseHunksGo_alias lines [] none ⟨by simp, by simp⟩

theorem parseBlock_fields (b : String) (f : DiffFile) (hf : parseBlock b = some f) :
    f.oldPath = f.pathA ∧ f.newPath = f.pathB ∧ ∀ h ∈ f.hunks, hunkAliasOk h := by
  unfold parseBlock at hf
  simp only [] at hf
  split at hf
  · exact absurd hf (by simp)
  · split at hf
    · exact absurd hf (by simp)
    · rename_i diffLine hfind pp hpaths
      injection hf with hf
      rw [← hf]
      exact ⟨rfl, rfl, parseHunks_alias _⟩

/-! ## Claims -/

/-- C5: for every diff text, `countChanges` applied to the parse result
returns an additions count equal to the number of hunk lines beginning
with `+` and a deletions count equal to the number of hunk lines beginning
with `-`, summed across all hunks of all parsed files. -/
theorem countChanges_matches_line_counts (text : String) :
    countChanges (splitByFile text)
      = { additions := specAdditions (splitByFile text),
          deletions := specDeletions (splitByFile text) } := by
  unfold countChanges
  rw [countFile_fold]
  simp

/-- C8: the parser returns normally on every input string; a block lacking
the `diff --git ` marker contributes nothing, unparseable blocks are
omitted (the result is exactly the filterMap of the per-block parser over
the blocks), and a trailing unparseable block never suppresses the
correctly parsed preceding files. -/
theorem parser_never_raises_degrades :
    (∀ text, splitByFile text
        = ((splitBlocks text).filter (fun b => strTrim b != "")).filterMap parseBlock)
    ∧ (∀ b, ((splitChar b '\n').all (fun l => !strStarts l "diff --git ")) = true →
        parseBlock b = none)
    ∧ (∀ text bs b,
        ((splitBlocks text).filter (fun b => strTrim b != "")) = bs ++ [b] →
        parseBlock b = none →
        splitByFile text = bs.filterMap parseBlock) := by
  refine ⟨splitByFile_eq_filterMap, ?_, ?_⟩
  · intro b h
    unfold parseBlock
    have hfind : (splitChar b '\n').find? (fun l => strStarts l "diff --git ") = none := by
      rw [List.find?_eq_none]
      intro x hx
      have := List.all_eq_true.mp h x hx
      simp at this
      simp [this]
    simp [hfind]
  · intro text bs b hsplit hnone
    rw [splitByFile_eq_filterMap, hsplit, List.filterMap_append]
    simp [hnone]

/-- C8 witness: a block of plain text without any `diff --git ` marker is
discarded. -/
theorem parser_never_raises_degrades_witness :
    parseBlock "garbage text\nwith no marker" = none :=
  parser_never_raises_degrades.2.1 "garbage text\nwith no marker" (by decide)

theorem emitTagged_no_trunc (tag : String) (maxBytes : Nat) (lines : List String) :
    ∀ lineNum total : Nat,
      total + (lines.map (fun l => byteLen (tag ++ l))).sum ≤ maxBytes →
      emitTagged tag maxBytes lines lineNum total = lines.map (fun l => tag ++ l) := by
  induction lines with
  | nil => intro n t h; simp [emitTagged]
  | cons l ls ih =>
    intro n t h
    simp only [List.map_cons, List.sum_cons] at h
    rw [emitTagged]
    rw [if_neg (by omega)]
    rw [ih (n + 1) (t + byteLen (tag ++ l)) (by omega)]
    simp

theorem emitFrom_no_trunc (added : List Nat) (rmap : List (Nat × List String)) (maxBytes : Nat)
    (lines : List String) :
    ∀ n total : Nat,
      total + ((specBody added rmap lines n).map byteLen).sum ≤ maxBytes →
      emitFrom added rmap maxBytes lines n total = specBody added rmap lines n := by
  induction lines with
  | nil => intro n t h; simp [emitFrom, specBody]
  | cons l ls ih =>
    intro n t h
    rw [specBody] at h ⊢
    simp only [List.map_append, List.sum_append, List.map_cons, List.sum_cons] at h
    rw [emitFrom]
    rw [if_neg (by omega)]
    rw [ih (n + 1) _ (by omega)]

theorem emitFrom_cases (added : List Nat) (rmap : List (Nat × List String)) (maxBytes : Nat)
    (lines : List String) :
    ∀ n total : Nat,
      emitFrom added rmap maxBytes lines n total = specBody added rmap lines n
      ∨ ∃ i, i < lines.length
          ∧ emitFrom added rmap maxBytes lines n total
              = specBody added rmap (lines.take i) n ++ mgetD rmap (n + i)
                ++ [truncMarker (n + i) (lines.length - i)] := by
  induction lines with
  | nil => intro n t; left; simp [emitFrom, specBody]
  | cons l ls ih =>
    intro n t
    rw [emitFrom]
    by_cases htr : t + (List.map byteLen (mgetD rmap n)).sum
        + byteLen ((if added.contains n then "+" else " ") ++ l) > maxBytes
    · right
      refine ⟨0, by simp, ?_⟩
      rw [if_pos htr]
      simp [specBody]
    · rw [if_neg htr]
      rcases ih (n + 1) (t + (List.map byteLen (mgetD rmap n)).sum
          + byteLen ((if added.contains n then "+" else " ") ++ l)) with heq | ⟨i, hi, heq⟩
      · left
        rw [specBody, heq]
      · right
        refine ⟨i + 1, by simp; omega, ?_⟩
        rw [heq]
        have h1 : n + (i + 1) = n + 1 + i := by omega
        have h2 : (l :: ls).length - (i + 1) = ls.length - i := by simp
        rw [List.take_succ_cons, specBody, h1, h2]
        simp

/-- C1: for a modified or renamed file with both contents available, the
full-mode reconstruction builds the addition set and the removed-lines map
by walking the hunks with independent old/new cursors, emits for each
after line `n` first the removed lines mapped to `n` and then line `n`
tagged `+` exactly when `n` is in the addition set (space otherwise), and
after the final line emits the removed lines mapped to
`length(afterContent) + 1`.  Stated for the emitted body following the
hunk-header preamble, whenever the output fits the byte budget, for both
the commit and the staged reconstruction. -/
theorem full_reconstruction_interleave (hunks : List DiffHunk)
    (beforeContent afterContent : String) (maxBytes : Nat)
    (hbefore : beforeContent ≠ "") (hafter : afterContent ≠ "")
    (hfits : ((specBody (buildHunkMaps hunks).1 (buildHunkMaps hunks).2
        (splitChar afterContent '\n') 1).map byteLen).sum ≤ maxBytes) :
    getFullFileContent hunks beforeContent afterContent maxBytes .modified
        = hunkHeaderLines hunks ++ specReconstruct hunks afterContent
      ∧ getFullFileContent hunks beforeContent afterContent maxBytes .renamed
        = hunkHeaderLines hunks ++ specReconstruct hunks afterContent
      ∧ getFullFileContentForStaged hunks .modified afterContent maxBytes
        = hunkHeaderLines hunks ++ specReconstruct hunks afterContent
      ∧ getFullFileContentForStaged hunks .renamed afterContent maxBytes
        = hunkHeaderLines hunks ++ specReconstruct hunks afterContent := by
  have he := emitFrom_no_trunc (buildHunkMaps hunks).1 (buildHunkMaps hunks).2 maxBytes
    (splitChar afterContent '\n') 1 0 (by omega)
  refine ⟨?_, ?_, ?_, ?_⟩ <;>
    simp [getFullFileContent, getFullFileContentForStaged, specReconstruct, he]

/-- C1 witness: the interleave theorem applied at a concrete one-hunk
modification. -/
theorem full_reconstruction_interleave_witness :
    getFullFileContent [wHunk] "line1\nline2" "line1\nnew line\nline2" 1000000 .modified
      = hunkHeaderLines [wHunk] ++ specReconstruct [wHunk] "line1\nnew line\nline2" :=
  (full_reconstruction_interleave [wHunk] "line1\nline2" "line1\nnew line\nline2" 1000000
    (by decide) (by decide) (by decide)).1

/-- C2: for an added file with no hunks supplied, reconstruction emits
exactly one `+`-tagged line per after-content line, in order (so line `n`
of the output is after line `n`), and the before content is ignored (it is
universally quantified and absent from the right-hand side). -/
theorem added_file_all_added (beforeContent afterContent : String) (maxBytes : Nat)
    (hfits : ((splitChar afterContent '\n').map (fun l => byteLen ("+" ++ l))).sum ≤ maxBytes) :
    getFullFileContent [] beforeContent afterContent maxBytes .added
        = (splitChar afterContent '\n').map (fun l => "+" ++ l)
      ∧ (getFullFileContent [] beforeContent afterContent maxBytes .added).length
        = (splitChar afterContent '\n').length := by
  have he := emitTagged_no_trunc "+" maxBytes (splitChar afterContent '\n') 1 0 (by omega)
  constructor
  · simp [getFullFileContent, hunkHeaderLines, he]
  · simp [getFullFileContent, hunkHeaderLines, he]

/-- C2 witness: a two-line added file reconstructs to two added lines. -/
theorem added_file_all_added_witness :
    getFullFileContent [] "" "alpha\nbeta" 1000000 .added
      = (splitChar "alpha\nbeta" '\n').map (fun l => "+" ++ l) :=
  (added_file_all_added "" "alpha\nbeta" 1000000 (by decide)).1

/-- C3 counterexample: with a 1-byte budget the reconstruction emits the
truncation marker and then still emits the end-of-file removed line `-c`
after it, so emission does not stop at the marker and the marker is not
the last emitted line. -/
theorem truncation_claim_cex :
    getFullFileContent [truncHunk] "a\nb\nc" "a\nb" 1 .modified
        = ["@@ -1,3 +1,2 @@", "", "... (truncated at line 1, 2 lines omitted)", "-c"]
      ∧ (getFullFileContent [truncHunk] "a\nb\nc" "a\nb" 1 .modified).getLast?
          ≠ some "... (truncated at line 1, 2 lines omitted)" := by
  constructor
  · decide
  · decide

/-- C3 amended: the byte total accumulates every emitted line plus one
terminator byte, but only after-content lines are budget-checked; when the
total including the current after line exceeds `maxBytes` that line is
dropped, exactly one marker `... (truncated at line n, k lines omitted)`
(with `n + k = length(afterContent) + 1`) is emitted and the after-content
walk stops — however the removed lines mapped to
`length(afterContent) + 1` are still emitted after the marker.  Stated for
the commit and the staged modified-file reconstructions. -/
theorem truncation_behavior (hunks : List DiffHunk)
    (beforeContent afterContent : String) (maxBytes : Nat) :
    (getFullFileContent hunks beforeContent afterContent maxBytes .modified
        = hunkHeaderLines hunks ++ specReconstruct hunks afterContent
      ∨ ∃ i, i < (splitChar afterContent '\n').length
          ∧ getFullFileContent hunks beforeContent afterContent maxBytes .modified
              = hunkHeaderLines hunks
                ++ specBody (buildHunkMaps hunks).1 (buildHunkMaps hunks).2
                    ((splitChar afterContent '\n').take i) 1
                ++ mgetD (buildHunkMaps hunks).2 (1 + i)
                ++ [truncMarker (1 + i) ((splitChar afterContent '\n').length - i)]
                ++ mgetD (buildHunkMaps hunks).2 ((splitChar afterContent '\n').length + 1))
    ∧ (getFullFileContentForStaged hunks .modified afterContent maxBytes
        = hunkHeaderLines hunks ++ specReconstruct hunks afterContent
      ∨ ∃ i, i < (splitChar afterContent '\n').length
          ∧ getFullFileContentForStaged hunks .modified afterContent maxBytes
              = hunkHeaderLines hunks
                ++ specBody (buildHunkMaps hunks).1 (buildHunkMaps hunks).2
                    ((splitChar afterContent '\n').take i) 1
                ++ mgetD (buildHunkMaps hunks).2 (1 + i)
                ++ [truncMarker (1 + i) ((splitChar afterContent '\n').length - i)]
                ++ mgetD (buildHunkMaps hunks).2 ((splitChar afterContent '\n').length + 1)) := by
  constructor
  · rcases emitFrom_cases (buildHunkMaps hunks).1 (buildHunkMaps hunks).2 maxBytes
        (splitChar afterContent '\n') 1 0 with heq | ⟨i, hi, heq⟩
    · left
      simp [getFullFileContent, specReconstruct, heq]
    · right
      refine ⟨i, hi, ?_⟩
      simp [getFullFileContent, heq]
  · rcases emitFrom_cases (buildHunkMaps hunks).1 (buildHunkMaps hunks).2 maxBytes
        (splitChar afterContent '\n') 1 0 with heq | ⟨i, hi, heq⟩
    · left
      simp [getFullFileContentForStaged, specReconstruct, heq]
    · right
      refine ⟨i, hi, ?_⟩
      simp [getFullFileContentForStaged, heq]

/-- C10: every `DiffFile` the parser produces has `oldPath = pathA` and
`newPath = pathB`, and every parsed `DiffHunk` has `oldLines = oldCount`
and `newLines = newCount`: the legacy-named fields always equal the
canonical fields. -/
theorem alias_fields_equal (text : String) (f : DiffFile) (hmem : f ∈ splitByFile text) :
    (f.oldPath = f.pathA ∧ f.newPath = f.pathB)
      ∧ ∀ h ∈ f.hunks, h.oldLines = h.oldCount ∧ h.newLines = h.newCount := by
  rw [splitByFile_eq_filterMap] at hmem
  obtain ⟨b, hb, hfb⟩ := List.mem_filterMap.mp hmem
  obtain ⟨h1, h2, h3⟩ := parseBlock_fields b f hfb
  exact ⟨⟨h1, h2⟩, h3⟩

theorem parseHunkHeader_none (l : String) (h : strStarts l "@@" = false) :
    parseHunkHeader l = none := by
  have hq : ("@@" : String).data = ['@', '@'] := rfl
  have hcond : ¬ (l.data.take 4 = ['@', '@', ' ', '-']) := by
    intro hc
    have htrue : strStarts l "@@" = true := by
      unfold strStarts
      rw [hq]
      cases hd : l.data with
      | nil => rw [hd] at hc; simp at hc
      | cons a t =>
        cases t with
        | nil => rw [hd] at hc; simp at hc
        | cons b t2 =>
          rw [hd] at hc
          simp at hc
          simp [List.isPrefixOf, hc.1, hc.2.1]
    rw [h] at htrue
    exact Bool.false_ne_true htrue
  unfold parseHunkHeader
  rw [if_neg hcond]

theorem parseHunksGo_active (rest : List String) :
    ∀ (done : List DiffHunk) (h : DiffHunk),
      (∀ x ∈ rest, strStarts x "@@" = true → (parseHunkHeader x).isSome) →
      parseHunksGo done (some (h, 0)) rest
        = done ++ ({ h with lines := h.lines ++ hunkBody rest }
            :: specParseHunks (rest.dropWhile (fun x => !strStarts x "@@"))) := by
  induction rest with
  | nil =>
    intro done h hok
    simp [parseHunksGo, flushCur, hunkBody, specParseHunks]
  | cons l rest ih =>
    intro done h hok
    rw [parseHunksGo]
    by_cases hat : strStarts l "@@" = true
    · have hsome := hok l (by simp) hat
      rw [Option.isSome_iff_exists] at hsome
      obtain ⟨⟨os, oc, ns, nc⟩, hq⟩ := hsome
      have hstep : parseHunksStep (done, some (h, 0)) l
          = (done ++ [h], some (mkHunk l os oc ns nc, 0)) := by
        simp [parseHunksStep, hat, hq, flushCur]
      rw [hstep]
      rw [ih _ _ (fun x hx => hok x (List.mem_cons_of_mem l hx))]
      simp [hunkBody, List.takeWhile_cons, List.dropWhile_cons, hat, specParseHunks, hq, mkHunk]
    · have hat2 : strStarts l "@@" = false := by
        cases hb : strStarts l "@@"
        · rfl
        · exact absurd hb hat
      have hnone := parseHunkHeader_none l hat2
      by_cases hbody : (strStarts l " " || strStarts l "+" || strStarts l "-") = true
      · have hstep : parseHunksStep (done, some (h, 0)) l
            = (done, some ({ h with lines := h.lines ++ [l] }, 0)) := by
          simp [parseHunksStep, hat2, hnone, hbody]
        rw [hstep]
        rw [ih _ _ (fun x hx => hok x (List.mem_cons_of_mem l hx))]
        simp [hunkBody, List.takeWhile_cons, List.dropWhile_cons, hat2, specParseHunks, hnone,
          hbody]
      · have hbody2 : (strStarts l " " || strStarts l "+" || strStarts l "-") = false := by
          cases hb : (strStarts l " " || strStarts l "+" || strStarts l "-")
          · rfl
          · exact absurd hb hbody
        have hstep : parseHunksStep (done, some (h, 0)) l = (done, some (h, 0)) := by
          simp [parseHunksStep, hat2, hnone, hbody2]
        rw [hstep]
        rw [ih _ _ (fun x hx => hok x (List.mem_cons_of_mem l hx))]
        simp [hunkBody, List.takeWhile_cons, List.dropWhile_cons, hat2, specParseHunks, hnone,
          List.filter_cons, hbody2]

theorem parseHunksGo_idle (lines : List String) :
    ∀ done : List DiffHunk,
      (∀ x ∈ lines, strStarts x "@@" = true → (parseHunkHeader x).isSome) →
      parseHunksGo done none lines = done ++ specParseHunks lines := by
  induction lines with
  | nil => intro done hok; simp [parseHunksGo, flushCur, specParseHunks]
  | cons l rest ih =>
    intro done hok
    rw [parseHunksGo]
    by_cases hat : strStarts l "@@" = true
    · have hsome := hok l (by simp) hat
      rw [Option.isSome_iff_exists] at hsome
      obtain ⟨⟨os, oc, ns, nc⟩, hq⟩ := hsome
      have hstep : parseHunksStep (done, none) l = (done, some (mkHunk l os oc ns nc, 0)) := by
        simp [parseHunksStep, hat, hq, flushCur]
      rw [hstep]
      rw [parseHunksGo_active rest done (mkHunk l os oc ns nc)
        (fun x hx => hok x (List.mem_cons_of_mem l hx))]
      rw [specParseHunks, hq]
      simp [mkHunk]
    · have hat2 : strStarts l "@@" = false := by
        cases hb : strStarts l "@@"
        · rfl
        · exact absurd hb hat
      have hnone := parseHunkHeader_none l hat2
      have hstep : parseHunksStep (done, none) l = (done, none) := by
        unfold parseHunksStep
        simp [hat2, hnone]
      rw [hstep]
      rw [ih done (fun x hx => hok x (List.mem_cons_of_mem l hx))]
      rw [specParseHunks, hnone]

/-- C7 counterexample: a line starting `@@` that fails the header pattern
(`@@ bad`) re-flushes the already flushed hunk, so the hunk appears twice
in the result, and the ` b` line scanned after the malformed header is
accumulated into both copies — the previous hunk is not flushed exactly
once. -/
theorem parseHunks_flush_once_cex :
    parseHunks ["@@ -1,2 +1,3 @@", " a", "@@ bad", " b"]
        = [{ header := "@@ -1,2 +1,3 @@", lines := [" a", " b"], oldStart := 1, newStart := 1,
             oldCount := 2, newCount := 3, oldLines := 2, newLines := 3 },
           { header := "@@ -1,2 +1,3 @@", lines := [" a", " b"], oldStart := 1, newStart := 1,
             oldCount := 2, newCount := 3, oldLines := 2, newLines := 3 }] := by
  decide

/-- C7 amended: provided every line beginning `@@` matches the hunk-header
pattern, the scan flushes each hunk exactly once — a new header flushes
the previous hunk before starting a new one, the trailing hunk is flushed
once after the scan, and only context/`+`/`-` lines are accumulated
(`parseHunks` equals the clean extraction `specParseHunks`).  A
`@@`-prefixed line that fails the pattern instead re-flushes the current
hunk, which keeps accumulating (see the counterexample). -/
theorem parseHunks_flush_once (lines : List String)
    (hok : ∀ x ∈ lines, strStarts x "@@" = true → (parseHunkHeader x).isSome) :
    parseHunks lines = specParseHunks lines := by
  unfold parseHunks
  exact parseHunksGo_idle lines [] hok

/-- C7 witness: the clean-extraction equality at the scenario hunk block. -/
theorem parseHunks_flush_once_witness :
    parseHunks ["@@ -1,2 +1,3 @@", " line1", "+new line", " line2"]
      = specParseHunks ["@@ -1,2 +1,3 @@", " line1", "+new line", " line2"] :=
  parseHunks_flush_once ["@@ -1,2 +1,3 @@", " line1", "+new line", " line2"] (by decide)

theorem hunksModeLine_fold (lines : List String) :
    ∀ st : HunksModeState, lines.foldl hunksModeLineStep st
      = { out := st.out ++ lines.filter (fun l => strStarts l "+" || strStarts l "-"),
          addedCount := st.addedCount + lines.countP (fun l => strStarts l "+"),
          removedCount := st.removedCount + lines.countP (fun l => strStarts l "-") } := by
  induction lines with
  | nil => intro st; simp
  | cons l ls ih =>
    intro st
    by_cases hp : strStarts l "+" = true
    · have hm := strStarts_plus_minus l hp
      simp [hunksModeLineStep, hp, hm, ih, List.countP_cons, List.filter_cons]
      omega
    · have hp2 : strStarts l "+" = false := by
        cases hb : strStarts l "+"
        · rfl
        · exact absurd hb hp
      by_cases hm : strStarts l "-" = true
      · simp [hunksModeLineStep, hp2, hm, ih, List.countP_cons, List.filter_cons]
        omega
      · have hm2 : strStarts l "-" = false := by
          cases hb : strStarts l "-"
          · rfl
          · exact absurd hb hm
        simp [hunksModeLineStep, hp2, hm2, ih, List.countP_cons, List.filter_cons]

theorem hunksModeHunk_fold (hunks : List DiffHunk) :
    ∀ st : HunksModeState, hunks.foldl hunksModeHunkStep st
      = { out := st.out ++ (hunks.map (fun h =>
              h.header :: h.lines.filter (fun l => strStarts l "+" || strStarts l "-"))).flatten,
          addedCount := st.addedCount
            + (hunks.map (fun h => h.lines.countP (fun l => strStarts l "+"))).sum,
          removedCount := st.removedCount
            + (hunks.map (fun h => h.lines.countP (fun l => strStarts l "-"))).sum } := by
  induction hunks with
  | nil => intro st; simp
  | cons h hs ih =>
    intro st
    simp [hunksModeHunkStep, hunksModeLine_fold, ih]
    omega

theorem renderHunksLines_changed (file : DiffFile)
    (hst : file.status = Status.modified ∨ file.status = Status.renamed) :
    renderHunksLines file
      = ["```diff"]
        ++ (file.hunks.map (fun h =>
              h.header :: h.lines.filter (fun l => strStarts l "+" || strStarts l "-"))).flatten
        ++ ["```"]
        ++ (if 0 < (file.hunks.map (fun h => h.lines.countP (fun l => strStarts l "+"))).sum
              + (file.hunks.map (fun h => h.lines.countP (fun l => strStarts l "-"))).sum then
             ["*Changes: +"
               ++ toString (file.hunks.map (fun h => h.lines.countP (fun l => strStarts l "+"))).sum
               ++ " lines, -"
               ++ toString (file.hunks.map (fun h => h.lines.countP (fun l => strStarts l "-"))).sum
               ++ " lines*"]
           else []) := by
  rcases hst with hst | hst <;>
  · rw [renderHunksLines]
    rw [hst]
    rw [hunksModeHunk_fold]
    simp

theorem renderFileLines_hunks_dispatch (meta : CommitMeta) (opts : RenderOptions)
    (sb sa : String → String) (file : DiffFile)
    (hgate : (file.isBinary && opts.detectBinary
        && !isLikelyTextFile (fileDisplayPath file)) = false)
    (hne : file.hunks ≠ []) :
    renderFileLines meta opts sb sa Mode.hunks file
      = fileHeadLines file ++ [""] ++ renderHunksLines file := by
  unfold renderFileLines
  simp only [hgate]
  have hinner : (file.hunks.isEmpty && file.status != Status.deleted
      && file.status != Status.added) = false := by
    simp [List.isEmpty_iff, hne]
  simp [hinner]

/-- C6 counterexample: a modified file whose only hunk holds a single
context line renders in hunks mode without any totals line, refuting the
unconditional "followed by a totals line". -/
theorem hunks_mode_totals_cex :
    renderHunksLines ctxOnlyFile = ["```diff", "@@ -1,1 +1,1 @@", "```"]
      ∧ ∀ l ∈ renderHunksLines ctxOnlyFile, ¬ strStarts l "*Changes:" = true := by
  constructor
  · decide
  · decide

/-- C6 amended: in hunks mode an added (resp. deleted) file is rendered as
one synthetic hunk header plus a one-line summary (plus a totals line, no
full body); a modified or renamed file is rendered as each hunk's header
followed only by its `+`/`-` lines, followed by a totals line exactly when
at least one added or removed line exists.  The concrete scenario parses
to one modified file whose hunk has `oldCount = 2`, `newCount = 3`, and
its hunks-mode render is the hunk header plus only the `+new line` entry
plus the `+1 -0` totals line. -/
theorem hunks_mode_render :
    splitByFile scenarioText = [scenarioFile]
    ∧ renderFileLines metaC optsC (fun _ => "") (fun _ => "") Mode.hunks scenarioFile
        = ["", "### x.txt", "- **Status**: modified", "- **Language**: txt", "",
           "```diff", "@@ -1,2 +1,3 @@", "+new line", "```", "*Changes: +1 lines, -0 lines*"]
    ∧ (∀ (meta : CommitMeta) (opts : RenderOptions) (sb sa : String → String) (file : DiffFile),
        (file.status = Status.modified ∨ file.status = Status.renamed) →
        (file.isBinary && opts.detectBinary
            && !isLikelyTextFile (fileDisplayPath file)) = false →
        file.hunks ≠ [] →
        renderFileLines meta opts sb sa Mode.hunks file
          = fileHeadLines file ++ [""] ++ ["```diff"]
            ++ (file.hunks.map (fun h =>
                  h.header :: h.lines.filter (fun l => strStarts l "+" || strStarts l "-"))).flatten
            ++ ["```"]
            ++ (if 0 < (file.hunks.map (fun h => h.lines.countP (fun l => strStarts l "+"))).sum
                  + (file.hunks.map (fun h => h.lines.countP (fun l => strStarts l "-"))).sum then
                 ["*Changes: +"
                   ++ toString (file.hunks.map
                        (fun h => h.lines.countP (fun l => strStarts l "+"))).sum
                   ++ " lines, -"
                   ++ toString (file.hunks.map
                        (fun h => h.lines.countP (fun l => strStarts l "-"))).sum
                   ++ " lines*"]
               else []))
    ∧ (∀ file : DiffFile, file.status = Status.added →
        renderHunksLines file
          = ["```diff",
             "@@ -0,0 +1,"
               ++ toString ((splitChar file.body '\n').countP (fun l => strStarts l "+"))
               ++ " @@",
             "... (new file with "
               ++ toString ((splitChar file.body '\n').countP (fun l => strStarts l "+"))
               ++ " lines)",
             "```",
             "*Changes: +"
               ++ toString ((splitChar file.body '\n').countP (fun l => strStarts l "+"))
               ++ " lines, -0 lines*"])
    ∧ (∀ file : DiffFile, file.status = Status.deleted →
        renderHunksLines file
          = ["```diff",
             "@@ -1,"
               ++ toString ((splitChar file.body '\n').countP (fun l => strStarts l "-"))
               ++ " +0,0 @@",
             "... (file deleted with "
               ++ toString ((splitChar file.body '\n').countP (fun l => strStarts l "-"))
               ++ " lines)",
             "```",
             "*Changes: +0 lines, -"
               ++ toString ((splitChar file.body '\n').countP (fun l => strStarts l "-"))
               ++ " lines*"]) := by
  refine ⟨by decide, by decide, ?_, ?_, ?_⟩
  · intro meta opts sb sa file hst hgate hne
    rw [renderFileLines_hunks_dispatch meta opts sb sa file hgate hne,
      renderHunksLines_changed file hst]
    simp
  · intro file hst
    rw [renderHunksLines, hst]
  · intro file hst
    rw [renderHunksLines, hst]

/-- C6 witness: the general modified-file characterization applied to the
scenario file. -/
theorem hunks_mode_render_witness :
    renderFileLines metaC optsC (fun _ => "") (fun _ => "") Mode.hunks scenarioFile
      = fileHeadLines scenarioFile ++ [""] ++ ["```diff"]
        ++ (scenarioFile.hunks.map (fun h =>
              h.header :: h.lines.filter (fun l => strStarts l "+" || strStarts l "-"))).flatten
        ++ ["```"]
        ++ (if 0 < (scenarioFile.hunks.map
                (fun h => h.lines.countP (fun l => strStarts l "+"))).sum
              + (scenarioFile.hunks.map
                (fun h => h.lines.countP (fun l => strStarts l "-"))).sum then
             ["*Changes: +"
               ++ toString (scenarioFile.hunks.map
                    (fun h => h.lines.countP (fun l => strStarts l "+"))).sum
               ++ " lines, -"
               ++ toString (scenarioFile.hunks.map
                    (fun h => h.lines.countP (fun l => strStarts l "-"))).sum
               ++ " lines*"]
           else []) :=
  hunks_mode_render.2.2.1 metaC optsC (fun _ => "") (fun _ => "") scenarioFile
    (Or.inl (by decide)) (by decide) (by decide)

/-- C4 counterexample: a binary `.png` file rendered in full mode with
`detectBinary = false` is reconstructed normally — the binary-omitted
output does not appear, refuting "regardless of `detectBinary`". -/
theorem binary_omitted_cex :
    renderFileLines metaC { maxFileBytes := 1000000, detectBinary := false }
        (fun _ => "a") (fun _ => "b") Mode.full pngFile
      = ["", "### img.png", "- **Status**: modified", "- **Language**: png", "",
         "```diff", "@@ -1,1 +1,1 @@\n\n+b\n-a", "```"]
      ∧ "**Binary file - content omitted**"
          ∉ renderFileLines metaC { maxFileBytes := 1000000, detectBinary := false }
              (fun _ => "a") (fun _ => "b") Mode.full pngFile := by
  constructor
  · decide
  · decide

/-- C4 amended: for every binary-flagged file whose path is not on the
known-text allow-list, rendering yields the binary-omitted output, in any
mode, whenever `detectBinary` is true (with `detectBinary = false` the
content is rendered normally, see the counterexample). -/
theorem binary_omitted_with_detect (meta : CommitMeta) (opts : RenderOptions)
    (sb sa : String → String) (mode : Mode) (file : DiffFile)
    (hbin : file.isBinary = true) (hdet : opts.detectBinary = true)
    (htext : isLikelyTextFile (fileDisplayPath file) = false) :
    renderFileLines meta opts sb sa mode file
      = fileHeadLines file ++ ["", "**Binary file - content omitted**"] := by
  unfold renderFileLines
  simp [hbin, hdet, htext]

/-- C4 witness: the binary-omitted output at the concrete `.png` file with
`detectBinary = true`. -/
theorem binary_omitted_with_detect_witness :
    renderFileLines metaC optsC (fun _ => "a") (fun _ => "b") Mode.full pngFile
      = fileHeadLines pngFile ++ ["", "**Binary file - content omitted**"] :=
  binary_omitted_with_detect metaC optsC (fun _ => "a") (fun _ => "b") Mode.full pngFile
    (by decide) (by decide) (by decide)

/-- C9 counterexample: a render call with the degenerate byte budget
`maxFileBytes = 0` does not fail fast — per-file processing runs and the
file's section (with a truncated body) appears in the output. -/
theorem render_fail_fast_cex :
    renderMarkdownLines metaC [scenarioFile] Mode.full
        { maxFileBytes := 0, detectBinary := true }
        (fun _ => "line1\nline2") (fun _ => "line1\nnew line\nline2")
      = ["# Commit 0123456 - msg", "", "- **Author**: au", "- **Date**: 2025-01-01",
         "- **Hash**: 0123456789abcdef", "", "## Files Changed", "", "### x.txt",
         "- **Status**: modified", "- **Language**: txt", "", "```diff",
         "@@ -1,2 +1,3 @@\n\n... (truncated at line 1, 3 lines omitted)", "```"]
      ∧ "### x.txt" ∈ renderMarkdownLines metaC [scenarioFile] Mode.full
          { maxFileBytes := 0, detectBinary := true }
          (fun _ => "line1\nline2") (fun _ => "line1\nnew line\nline2") := by
  constructor
  · decide
  · decide

theorem renderMarkdown_fold (meta : CommitMeta) (opts : RenderOptions)
    (sb sa : String → String) (mode : Mode) (files : List DiffFile) :
    ∀ acc : List String,
      files.foldl (fun acc f => acc ++ renderFileLines meta opts sb sa mode f) acc
        = acc ++ (files.map (renderFileLines meta opts sb sa mode)).flatten := by
  induction files with
  | nil => intro acc; simp
  | cons f fs ih =>
    intro acc
    simp [ih]

/-- C9 amended: the renderer performs no `RenderOptions` validation and
never fails — for every options value, including a non-positive byte
budget, the output is the metadata header followed by the per-file
rendering of every supplied file in order (degenerate budgets yield
truncated per-file output rather than a propagated failure). -/
theorem render_processes_all_files (meta : CommitMeta) (files : List DiffFile) (mode : Mode)
    (opts : RenderOptions) (sb sa : String → String) :
    renderMarkdownLines meta files mode opts sb sa
      = metaHeaderLines meta
        ++ (if files.isEmpty then ["", "No files changed."]
            else ["", "## Files Changed"]
              ++ (files.map (renderFileLines meta opts sb sa mode)).flatten) := by
  rw [renderMarkdownLines]
  cases files with
  | nil => simp
  | cons f fs =>
    simp only [List.isEmpty_cons, if_neg]
    rw [renderMarkdown_fold]
    simp

/-- C10 witness: the alias-field equalities at the parsed scenario file. -/
theorem alias_fields_equal_witness :
    (scenarioFile.oldPath = scenarioFile.pathA ∧ scenarioFile.newPath = scenarioFile.pathB)
      ∧ ∀ h ∈ scenarioFile.hunks, h.oldLines = h.oldCount ∧ h.newLines = h.newCount :=
  alias_fields_equal scenarioText scenarioFile (by decide)

end DiffScribe
